import Mathlib

/-!
Verification development for the trading-state core of the `bbtt` repository:
the order-management engine (`src/oms/oms.py`), the FIFO session-accounting
engine (`src/accounting/sessionacc.py`) and the shared rate throttle
(`src/utils/throttle.py`).

Modelling conventions:
* Python `float` values (prices, quantities, fee rates, PnL) are embedded as
  exact rationals `ℚ`; millisecond timestamps as `ℤ`.
* Python dictionaries keyed by strings are embedded as functions
  `String → Option α`; `d[k] = v` is `updMap d k (some v)` and
  `d.pop(k, None)` is `updMap d k none`.
* Python's `sorted` is a stable sort; it is embedded as `List.insertionSort`,
  which is also stable and therefore produces the same output list.
* A Python method that can raise is embedded with `Except`/`Option` results;
  an uncaught `KeyError` is `Except.error "KeyError"`.
* The unbounded `while` loop of the FIFO matcher strictly decreases the total
  queue length at every iteration, so it is embedded with a fuel argument set
  to the total queue length (`matchAll`); `matchLoopF_of_le` proves any larger
  fuel computes the same result, i.e. the fuel is not a semantic restriction.
-/

namespace BBTT

/-! ### Rate throttle (`src/utils/throttle.py`)

`throttle(rate)` wraps a function: it repeatedly filters the global `_calls`
list down to the timestamps `t` with `time() - t <= 1` and spins while at
least `rate` of them remain; after running the wrapped function it appends a
fresh `time()` reading.  A run of throttled calls is modelled as a sequence of
`AcqEvent`s: `tExit` is the moment the busy-wait loop was exited (the final
window check) and `tRec` is the timestamp appended afterwards; real time is
monotone, so every previously recorded timestamp is `≤ tExit ≤ tRec`. -/

/-- One throttled call: the time the busy-wait loop exited and the time
recorded into the global call list afterwards. -/
structure AcqEvent where
  tExit : ℚ
  tRec : ℚ
deriving DecidableEq

/-- The timestamps of `calls` still inside the trailing 1-second window at
time `now`: the embedding of `[t for t in _calls if time()-t <= 1]`. -/
def callWindow (calls : List ℚ) (now : ℚ) : List ℚ :=
  calls.filter (fun t => decide (now - t ≤ 1))

/-- A physically possible run of throttled calls starting from the recorded
list `calls`: each call leaves the busy-wait loop only when fewer than `rate`
timestamps remain in the trailing 1-second window, records its timestamp no
earlier than that, and time is monotone. -/
def validRun (rate : ℕ) : List ℚ → List AcqEvent → Prop
  | _, [] => True
  | calls, e :: rest =>
    (callWindow calls e.tExit).length < rate ∧
    e.tExit ≤ e.tRec ∧
    (∀ t ∈ calls, t ≤ e.tExit) ∧
    validRun rate (calls ++ [e.tRec]) rest

/-! ### Early binding of the throttle rate (`src/oms/oms.py` lines 18-19,
99-101, and the `@throttle(rate=API_RATE)` decorators)

The module constant `API_RATE = 10` is read once, when the decorators in the
class body of `Oms` are evaluated at import time; `Oms.__init__` later
executes `global API_RATE; API_RATE = api_rate`, which mutates the module
global but cannot change the rate already captured by the decorators. -/

/-- The module-level constant `API_RATE` at import time. -/
def API_RATE : ℕ := 10

/-- A function wrapped by `throttle(rate=...)`: the decorator captures the
rate by value at decoration time. -/
structure ThrottledFn where
  rate : ℕ
deriving DecidableEq

/-- The decorator factory `throttle(rate)`. -/
def throttleDecorate (rate : ℕ) : ThrottledFn :=
  { rate := rate }

/-- The four throttled methods of the `Oms` class. -/
structure OmsClassMethods where
  connect : ThrottledFn
  create_order : ThrottledFn
  amend_order : ThrottledFn
  cancel_order : ThrottledFn
deriving DecidableEq

/-- Evaluation of the `Oms` class body at import time: each
`@throttle(rate=API_RATE)` decorator runs with the then-current global
`API_RATE`. -/
def omsClassMethods : OmsClassMethods :=
  { connect := throttleDecorate API_RATE
    create_order := throttleDecorate API_RATE
    amend_order := throttleDecorate API_RATE
    cancel_order := throttleDecorate API_RATE }

/-- The mutable module globals relevant to the throttle rate, together with
the already-decorated methods. -/
structure OmsGlobals where
  apiRate : ℕ
  methods : OmsClassMethods
deriving DecidableEq

/-- State of the module after `import`: `API_RATE = 10` and the class body
already evaluated. -/
def omsModuleLoaded : OmsGlobals :=
  { apiRate := API_RATE, methods := omsClassMethods }

/-- Effect of `Oms.__init__(..., api_rate, ...)` on the module globals: it
reassigns the global `API_RATE` and nothing else (the decorated methods are
untouched). -/
def omsConstructorGlobals (g : OmsGlobals) (api_rate : ℕ) : OmsGlobals :=
  { g with apiRate := api_rate }

/-! ### Order state engine (`src/oms/oms.py`) -/

/-- One entry of an order-stream message's `data` array, restricted to the
fields the engine reads. -/
structure OrderEvent where
  symbol : String
  category : String
  orderLinkId : String
  orderId : String
  orderStatus : String
  leavesQty : ℚ
  updatedTime : ℤ
deriving DecidableEq

/-- Dictionary update: `m[k] = v` for `v = some _`, `m.pop(k, None)` for
`v = none`. -/
def updMap {α : Type} (m : String → Option α) (k : String) (v : Option α) :
    String → Option α :=
  fun x => if x = k then v else m x

/-- The mutable state of an `Oms` instance (transport handles omitted). -/
structure OmsState where
  symbol : String
  category : String
  positionEventSet : Bool
  orderStatus : String → Option String
  activeOrders : String → Option OrderEvent
  position : ℚ
  side : Option String
  uuid : String
  orderLinkIdN : ℕ

/-- `Oms.__init__`: tracked symbol/category, cleared position event, empty
dictionaries, zero position, link-id counter at 0.  The `uuid` prefix is
drawn from `uuid4()` and is a parameter here. -/
def Oms.init (symbol category uuid : String) : OmsState :=
  { symbol := symbol
    category := category
    positionEventSet := false
    orderStatus := fun _ => none
    activeOrders := fun _ => none
    position := 0
    side := none
    uuid := uuid
    orderLinkIdN := 0 }

/-- Body of the per-order loop of `Oms._on_order_message`: overwrite the
status keyed by link-id; insert into the active set if `leavesQty != 0`,
else pop it. -/
def Oms.processOrderEvent (st : OmsState) (o : OrderEvent) : OmsState :=
  let st1 := { st with orderStatus := updMap st.orderStatus o.orderLinkId (some o.orderStatus) }
  if o.leavesQty ≠ 0 then
    { st1 with activeOrders := updMap st1.activeOrders o.orderLinkId (some o) }
  else
    { st1 with activeOrders := updMap st1.activeOrders o.orderLinkId none }

/-- The order events of a batch for the tracked symbol and category. -/
def Oms.relevantOrders (st : OmsState) (data : List OrderEvent) : List OrderEvent :=
  data.filter (fun o => decide (o.symbol = st.symbol ∧ o.category = st.category))

/-- `sorted(..., key=lambda o: int(o["updatedTime"]))` (stable). -/
def Oms.sortOrders (l : List OrderEvent) : List OrderEvent :=
  l.insertionSort (fun a b => a.updatedTime ≤ b.updatedTime)

/-- `Oms._on_order_message` on an order-topic message carrying `data`: if no
event matches the tracked symbol/category nothing happens; otherwise the
matching events are processed in ascending `updatedTime` order. -/
def Oms.onOrderMessage (st : OmsState) (data : List OrderEvent) : OmsState :=
  if (Oms.relevantOrders st data).isEmpty then st
  else (Oms.sortOrders (Oms.relevantOrders st data)).foldl Oms.processOrderEvent st

/-- The caller-supplied keyword arguments of `Oms.create_order` that the
method itself reads; all other keyword arguments are passed through opaquely
in `extra`. -/
structure CreateRequest where
  qty : ℚ
  orderLinkId : Option String
  extra : List (String × String)
deriving DecidableEq

/-- An outbound `order.create` message (header timestamp, recv window, and
the single `args` entry). -/
structure CreateMsg where
  timestampMs : ℤ
  recvWindow : String
  symbol : String
  category : String
  qty : ℚ
  orderLinkId : String
  extra : List (String × String)
deriving DecidableEq

/-- The link-id `create_order` uses: the caller's, or the generated
`f"{self._uuid}-{self._order_link_id_n}"`. -/
def Oms.assignedLinkId (st : OmsState) (req : CreateRequest) : String :=
  match req.orderLinkId with
  | some l => l
  | none => st.uuid ++ "-" ++ toString st.orderLinkIdN

/-- `Oms.create_order` at current time `nowMs`: assigns the link-id (bumping
the counter when generated), records status `""`, then — if the position
event is not set — sends the timestamped create request and additionally
records `"Unsubmitted"` when `float(args["qty"]) == 0`; if the position event
is set it records `"Unsubmitted"` and sends nothing.  The returned `Option`
is the message sent over the trade channel, `none` when nothing is sent. -/
def Oms.create_order (st : OmsState) (nowMs : ℤ) (req : CreateRequest) :
    OmsState × Option CreateMsg :=
  let linkId := Oms.assignedLinkId st req
  let st1 :=
    match req.orderLinkId with
    | some _ => st
    | none => { st with orderLinkIdN := st.orderLinkIdN + 1 }
  let st2 := { st1 with orderStatus := updMap st1.orderStatus linkId (some "") }
  if st2.positionEventSet then
    ({ st2 with orderStatus := updMap st2.orderStatus linkId (some "Unsubmitted") }, none)
  else
    let msg : CreateMsg :=
      { timestampMs := nowMs
        recvWindow := "8000"
        symbol := st.symbol
        category := st.category
        qty := req.qty
        orderLinkId := linkId
        extra := req.extra }
    let st3 :=
      if req.qty = 0 then
        { st2 with orderStatus := updMap st2.orderStatus linkId (some "Unsubmitted") }
      else st2
    (st3, some msg)

/-- An outbound `order.cancel` message; its `args` entry carries exactly a
category, a symbol and an exchange order id. -/
structure CancelMsg where
  timestampMs : ℤ
  recvWindow : String
  category : String
  symbol : String
  orderId : String
deriving DecidableEq

/-- `Oms.cancel_order`: looks up the exchange-assigned `orderId` of the
link-id in the active set and sends a cancel whose `args` carry the literal
strings `"linear"` and `"ADAUSDT"` (as written in the source); a missing
link-id raises `KeyError`, which the method catches and ignores. -/
def Oms.cancel_order (st : OmsState) (nowMs : ℤ) (order_link_id : String) :
    Option CancelMsg :=
  match st.activeOrders order_link_id with
  | some o =>
      some { timestampMs := nowMs
             recvWindow := "8000"
             category := "linear"
             symbol := "ADAUSDT"
             orderId := o.orderId }
  | none => none

/-- `Oms.order_status`: a plain dictionary access `self._order_status[k]`; a
missing key raises `KeyError` (uncaught), embedded as `Except.error`. -/
def Oms.order_status (st : OmsState) (order_link_id : String) :
    Except String String :=
  match st.orderStatus order_link_id with
  | some s => Except.ok s
  | none => Except.error "KeyError"

/-! ### FIFO accounting engine (`src/accounting/sessionacc.py`) -/

/-- One entry of an execution-stream message's `data` array, restricted to
the fields the accounting engine reads. -/
structure ExecEvent where
  symbol : String
  category : String
  side : String
  execPrice : ℚ
  execQty : ℚ
  isMaker : Bool
  execTime : ℤ
deriving DecidableEq

/-- An unmatched fill queued in `self._buys` / `self._sells`: the dictionary
`{"price": ..., "qty": ..., "isMaker": ...}` built in `_on_exec_message`. -/
structure Fill where
  price : ℚ
  qty : ℚ
  isMaker : Bool
deriving DecidableEq

/-- The session metrics: `_pnl`, `_max_pnl`, `_drawdown`, `_wins`,
`_n_matched`. -/
structure Metrics where
  pnl : ℚ
  maxPnl : ℚ
  drawdown : ℚ
  wins : ℕ
  nMatched : ℕ
deriving DecidableEq

/-- Constructor parameters of `SessionAcc` used by the accounting logic. -/
structure AccCfg where
  symbol : String
  category : String
  maker : ℚ
  taker : ℚ
deriving DecidableEq

/-- The mutable accounting state: the two unmatched-fill queues and the
session metrics. -/
structure AccState where
  buys : List Fill
  sells : List Fill
  m : Metrics
deriving DecidableEq

/-- The fee rate selected by a fill's maker flag (`self._maker` if
`isMaker` else `self._taker`), as the spec's `feeRate`. -/
def feeRate (cfg : AccCfg) (isMaker : Bool) : ℚ :=
  if isMaker then cfg.maker else cfg.taker

/-- One iteration of the `while self._buys and self._sells:` loop acting on
the metrics, for buy head `b` and sell head `s`:
`Q = min(b.qty, s.qty)`, gross values `vb`/`vs`, fees `cb`/`cs` by each
side's maker flag, `net_profit = vs - vb - cb - cs` added to PnL, matched
counter incremented, win counted when `net_profit >= 0`, then peak and
drawdown updated. -/
def stepMetrics (cfg : AccCfg) (b s : Fill) (m : Metrics) : Metrics :=
  let Q := min b.qty s.qty
  let vb := Q * b.price
  let vs := Q * s.price
  let cb := if b.isMaker then vb * cfg.maker else vb * cfg.taker
  let cs := if s.isMaker then vs * cfg.maker else vs * cfg.taker
  let netProfit := vs - vb - cb - cs
  let pnl := m.pnl + netProfit
  let maxPnl := max m.maxPnl pnl
  { pnl := pnl
    maxPnl := maxPnl
    drawdown := max m.drawdown (maxPnl - pnl)
    wins := if 0 ≤ netProfit then m.wins + 1 else m.wins
    nMatched := m.nMatched + 1 }

/-- The buy queue after one loop iteration: the head's quantity is reduced
by `Q = min(b.qty, s.qty)` and the head is evicted exactly when it reaches
zero. -/
def nextBuys (b s : Fill) (bs : List Fill) : List Fill :=
  if b.qty - min b.qty s.qty = 0 then bs
  else { b with qty := b.qty - min b.qty s.qty } :: bs

/-- The sell queue after one loop iteration (symmetric to `nextBuys`). -/
def nextSells (b s : Fill) (ss : List Fill) : List Fill :=
  if s.qty - min b.qty s.qty = 0 then ss
  else { s with qty := s.qty - min b.qty s.qty } :: ss

/-- The matching loop with an explicit fuel bound: it runs while both queues
are non-empty, exactly as `while self._buys and self._sells:`.  Every
iteration evicts at least one queue head (the one whose quantity was the
minimum), so fuel equal to the total queue length always suffices; see
`matchLoopF_of_le`. -/
def matchLoopF (cfg : AccCfg) :
    ℕ → List Fill → List Fill → Metrics → List Fill × List Fill × Metrics
  | fuel + 1, b :: bs, s :: ss, m =>
      matchLoopF cfg fuel (nextBuys b s bs) (nextSells b s ss) (stepMetrics cfg b s m)
  | _, bs, ss, m => (bs, ss, m)

/-- The matching loop run to completion (fuel = total queue length, which is
always enough). -/
def matchAll (cfg : AccCfg) (bs ss : List Fill) (m : Metrics) :
    List Fill × List Fill × Metrics :=
  matchLoopF cfg (bs.length + ss.length) bs ss m

/-- The fill appended for one execution event. -/
def Fill.ofEvent (e : ExecEvent) : Fill :=
  { price := e.execPrice, qty := e.execQty, isMaker := e.isMaker }

/-- The per-event append loop of `_on_exec_message`: each fill is appended
to the buy queue when `side == "Buy"`, else to the sell queue. -/
def pushFills (bs ss : List Fill) : List ExecEvent → List Fill × List Fill
  | [] => (bs, ss)
  | e :: rest =>
      if e.side = "Buy" then pushFills (bs ++ [Fill.ofEvent e]) ss rest
      else pushFills bs (ss ++ [Fill.ofEvent e]) rest

/-- The execution events of a batch for the tracked symbol and category. -/
def relevantExec (cfg : AccCfg) (data : List ExecEvent) : List ExecEvent :=
  data.filter (fun e => decide (e.symbol = cfg.symbol ∧ e.category = cfg.category))

/-- `sorted(..., key=lambda e: int(e["execTime"]))` (stable). -/
def sortExec (l : List ExecEvent) : List ExecEvent :=
  l.insertionSort (fun a b => a.execTime ≤ b.execTime)

/-- The unguarded core of `_on_exec_message`: append the given fills to the
queues by side, then run the matching loop to completion. -/
def applyFills (cfg : AccCfg) (st : AccState) (fills : List ExecEvent) : AccState :=
  let qs := pushFills st.buys st.sells fills
  let r := matchAll cfg qs.1 qs.2 st.m
  { buys := r.1, sells := r.2.1, m := r.2.2 }

/-- `SessionAcc._on_exec_message` on an execution-topic message carrying
`data`: if no event matches the tracked symbol/category nothing happens;
otherwise the matching events, sorted ascending by execution time, are
appended to the queues and the matching loop runs. -/
def onExecMessage (cfg : AccCfg) (st : AccState) (data : List ExecEvent) : AccState :=
  if (relevantExec cfg data).isEmpty then st
  else applyFills cfg st (sortExec (relevantExec cfg data))

/-- The accounting state right after `SessionAcc.__init__`. -/
def initAcc : AccState :=
  { buys := [], sells := [], m := { pnl := 0, maxPnl := 0, drawdown := 0, wins := 0, nMatched := 0 } }

/-- A sequence of delivered execution batches, fed to the handler in
delivery order. -/
def runBatches (cfg : AccCfg) (st : AccState) (batches : List (List ExecEvent)) : AccState :=
  batches.foldl (onExecMessage cfg) st

/-- `SessionAcc.win_rate`: `self._wins / self._n_matched`, with the
`ZeroDivisionError` of a zero matched count caught and turned into `None`
(embedded as `none`). -/
def Metrics.win_rate (m : Metrics) : Option ℚ :=
  if m.nMatched = 0 then none else some ((m.wins : ℚ) / (m.nMatched : ℚ))

/-- The claim C2's net-profit formula, written exactly as the spec states
it: `Q·ps − Q·pb − Q·pb·feeRate(mb) − Q·ps·feeRate(ms)`. -/
def specNetProfit (cfg : AccCfg) (pb ps Q : ℚ) (mb ms : Bool) : ℚ :=
  Q * ps - Q * pb - Q * pb * feeRate cfg mb - Q * ps * feeRate cfg ms

/-- The last order event for a given link-id in a processed batch (the
update whose effect on that link-id survives the fold). -/
def lastEventFor (l : String) (data : List OrderEvent) : Option OrderEvent :=
  (data.filter (fun o => decide (o.orderLinkId = l))).getLast?

/-! ### Concrete inputs used by witnesses and counterexamples -/

/-- A fresh `Oms` state tracking `BTCUSDT`/`linear` with uuid prefix `u`. -/
def omsW : OmsState := Oms.init "BTCUSDT" "linear" "u"

/-- A concrete order event: fully filled (`leavesQty = 0`). -/
def oEvFilled : OrderEvent :=
  { symbol := "BTCUSDT", category := "linear", orderLinkId := "L2"
    orderId := "OID2", orderStatus := "Filled", leavesQty := 0, updatedTime := 5 }

/-- A concrete order event: resting (`leavesQty = 1`). -/
def oEvNew : OrderEvent :=
  { symbol := "BTCUSDT", category := "linear", orderLinkId := "L1"
    orderId := "OID1", orderStatus := "New", leavesQty := 1, updatedTime := 4 }

/-- An `Oms` state with one active order `L1 ↦ oEvNew`. -/
def omsWithActive : OmsState :=
  { omsW with
      activeOrders := updMap omsW.activeOrders "L1" (some oEvNew)
      orderStatus := updMap omsW.orderStatus "L1" (some "New") }

/-- A fee-free accounting configuration for `BTCUSDT`/`linear`. -/
def cfgW : AccCfg := { symbol := "BTCUSDT", category := "linear", maker := 0, taker := 0 }

/-- Buy 1 @ 100 at time 1. -/
def eB1 : ExecEvent :=
  { symbol := "BTCUSDT", category := "linear", side := "Buy"
    execPrice := 100, execQty := 1, isMaker := true, execTime := 1 }

/-- Buy 1 @ 200 at time 2. -/
def eB2 : ExecEvent :=
  { symbol := "BTCUSDT", category := "linear", side := "Buy"
    execPrice := 200, execQty := 1, isMaker := true, execTime := 2 }

/-- Sell 1 @ 150 at time 3. -/
def eS1 : ExecEvent :=
  { symbol := "BTCUSDT", category := "linear", side := "Sell"
    execPrice := 150, execQty := 1, isMaker := false, execTime := 3 }

/-- A create request with computed quantity exactly zero. -/
def reqZeroQty : CreateRequest :=
  { qty := 0, orderLinkId := some "L1", extra := [] }

/-- A create request with non-zero quantity. -/
def reqQtyTwo : CreateRequest :=
  { qty := 2, orderLinkId := some "L1", extra := [] }

/-! ## Theorems -/

/-- C10: whatever `api_rate` is passed to `Oms.__init__`, the rate captured
by the `@throttle(rate=API_RATE)` decorators on `connect`, `create_order`,
`amend_order` and `cancel_order` is the module constant 10 read at
class-body evaluation; the constructor's mutation of the global `API_RATE`
does not affect the decorated methods. -/
theorem api_rate_bound_at_class_eval (api_rate : ℕ) :
    ((omsConstructorGlobals omsModuleLoaded api_rate).methods.connect.rate = 10 ∧
     (omsConstructorGlobals omsModuleLoaded api_rate).methods.create_order.rate = 10 ∧
     (omsConstructorGlobals omsModuleLoaded api_rate).methods.amend_order.rate = 10 ∧
     (omsConstructorGlobals omsModuleLoaded api_rate).methods.cancel_order.rate = 10) ∧
    ∀ other : ℕ,
      (omsConstructorGlobals omsModuleLoaded api_rate).methods =
        (omsConstructorGlobals omsModuleLoaded other).methods :=
  ⟨⟨rfl, rfl, rfl, rfl⟩, fun _ => rfl⟩

/-- C8: `win_rate` returns `wins / n_matched` exactly when the matched count
is non-zero, and `None` (a "no data yet" result, not an exception) when it
is zero. -/
theorem win_rate_defined_iff_matched (m : Metrics) :
    (m.nMatched ≠ 0 → Metrics.win_rate m = some ((m.wins : ℚ) / (m.nMatched : ℚ))) ∧
    (m.nMatched = 0 → Metrics.win_rate m = none) := by
  constructor <;> intro h <;> simp [Metrics.win_rate, h]

/-- Witness for C8 at matched counts 4 (defined) and 0 (undefined). -/
theorem win_rate_defined_iff_matched_w :
    Metrics.win_rate { pnl := 0, maxPnl := 0, drawdown := 0, wins := 2, nMatched := 4 } =
      some (((2 : ℕ) : ℚ) / ((4 : ℕ) : ℚ)) ∧
    Metrics.win_rate { pnl := 0, maxPnl := 0, drawdown := 0, wins := 0, nMatched := 0 } = none :=
  ⟨(win_rate_defined_iff_matched _).1 (by decide),
   (win_rate_defined_iff_matched _).2 rfl⟩

/-- C3: for any tracked symbol/category and any link-id in the active set,
`cancel_order` emits a cancel whose args carry the literal `"linear"` and
`"ADAUSDT"` and the looked-up exchange order id; the constructor's
symbol/category never enter the message (changing them leaves the cancel
message unchanged). -/
theorem cancel_order_hardcodes_linear_adausdt (st : OmsState) (nowMs : ℤ)
    (l : String) (o : OrderEvent) (h : st.activeOrders l = some o) :
    Oms.cancel_order st nowMs l =
      some { timestampMs := nowMs, recvWindow := "8000", category := "linear",
             symbol := "ADAUSDT", orderId := o.orderId } ∧
    ∀ sym cat : String,
      Oms.cancel_order { st with symbol := sym, category := cat } nowMs l =
        Oms.cancel_order st nowMs l := by
  refine ⟨?_, fun _ _ => rfl⟩
  unfold Oms.cancel_order
  rw [h]

/-- Witness for C3: a state tracking `BTCUSDT` still cancels with symbol
`ADAUSDT`. -/
theorem cancel_order_hardcodes_linear_adausdt_w :
    Oms.cancel_order omsWithActive 7 "L1" =
      some { timestampMs := 7, recvWindow := "8000", category := "linear",
             symbol := "ADAUSDT", orderId := "OID1" } :=
  (cancel_order_hardcodes_linear_adausdt omsWithActive 7 "L1" oEvNew rfl).1

/-- C4 counterexample: `order_status` on an unknown link-id is the uncaught
dictionary access `self._order_status[order_link_id]`, which raises
`KeyError` (embedded as `Except.error "KeyError"`) instead of returning an
empty result. -/
theorem order_status_unknown_raises :
    Oms.order_status omsW "missing" = Except.error "KeyError" := rfl

/-- C4 (amended): on an unknown link-id, `cancel_order` is a silent no-op
and never raises, but `order_status` raises `KeyError` rather than
returning an empty result. -/
theorem unknown_link_id_behaviour (st : OmsState) (nowMs : ℤ) (l : String)
    (hc : st.activeOrders l = none) (hs : st.orderStatus l = none) :
    Oms.cancel_order st nowMs l = none ∧
    Oms.order_status st l = Except.error "KeyError" := by
  constructor
  · unfold Oms.cancel_order; rw [hc]
  · unfold Oms.order_status; rw [hs]

/-- Witness for C4 (amended) at a fresh state and unknown id `X`. -/
theorem unknown_link_id_behaviour_w :
    Oms.cancel_order omsW 0 "X" = none ∧
    Oms.order_status omsW "X" = Except.error "KeyError" :=
  unknown_link_id_behaviour omsW 0 "X" rfl rfl

/-- C1 counterexample: with the in-flight signal clear and the computed
quantity exactly zero, `create_order` still transmits the create request —
the `float(args["qty"]) == 0` check only rewrites the recorded status after
sending — contradicting the claim that a zero quantity suppresses
transmission. -/
theorem create_order_zero_qty_still_transmits :
    omsW.positionEventSet = false ∧
    reqZeroQty.qty = 0 ∧
    (Oms.create_order omsW 0 reqZeroQty).2 =
      some { timestampMs := 0, recvWindow := "8000", symbol := "BTCUSDT",
             category := "linear", qty := 0, orderLinkId := "L1", extra := [] } :=
  ⟨rfl, rfl, rfl⟩

/-- C1 (amended): transmission is gated solely by the in-flight signal.  If
the signal is set, status `"Unsubmitted"` is recorded and nothing is sent;
if the signal is clear, a timestamped create request is always transmitted,
and a computed quantity of exactly zero additionally causes status
`"Unsubmitted"` to be recorded (after sending), otherwise the status stays
`""`. -/
theorem create_order_gating (st : OmsState) (nowMs : ℤ) (req : CreateRequest) :
    (st.positionEventSet = true →
      (Oms.create_order st nowMs req).2 = none ∧
      (Oms.create_order st nowMs req).1.orderStatus (Oms.assignedLinkId st req) =
        some "Unsubmitted") ∧
    (st.positionEventSet = false →
      (Oms.create_order st nowMs req).2 =
        some { timestampMs := nowMs, recvWindow := "8000", symbol := st.symbol,
               category := st.category, qty := req.qty,
               orderLinkId := Oms.assignedLinkId st req, extra := req.extra } ∧
      (Oms.create_order st nowMs req).1.orderStatus (Oms.assignedLinkId st req) =
        some (if req.qty = 0 then "Unsubmitted" else "")) := by
  constructor <;> intro h
  · unfold Oms.create_order Oms.assignedLinkId
    cases hreq : req.orderLinkId <;> simp [h, hreq, updMap]
  · unfold Oms.create_order Oms.assignedLinkId
    cases hreq : req.orderLinkId <;> simp [h, hreq, updMap] <;>
      split <;> simp [updMap]

/-- Witness for C1 (amended): signal clear, quantity 2 — transmitted with
status left `""`. -/
theorem create_order_gating_w :
    (Oms.create_order omsW 5 reqQtyTwo).2 =
      some { timestampMs := 5, recvWindow := "8000", symbol := "BTCUSDT",
             category := "linear", qty := 2, orderLinkId := "L1", extra := [] } ∧
    (Oms.create_order omsW 5 reqQtyTwo).1.orderStatus "L1" = some "" := by
  have h := (create_order_gating omsW 5 reqQtyTwo).2 rfl
  refine ⟨h.1, ?_⟩
  have h2 := h.2
  norm_num [Oms.assignedLinkId, reqQtyTwo] at h2
  exact h2

/-- C2: a single full match of a buy (price `pb`, qty `Q`, maker flag `mb`)
against a sell (price `ps`, qty `Q`, maker flag `ms`) adds exactly
`Q·ps − Q·pb − Q·pb·feeRate(mb) − Q·ps·feeRate(ms)` to the cumulative PnL,
increments the matched-trade counter by one, and increments the win counter
exactly when that net profit is ≥ 0. -/
theorem single_full_match_net_profit (cfg : AccCfg) (pb ps Q : ℚ) (mb ms : Bool)
    (m : Metrics) :
    ((matchAll cfg [{ price := pb, qty := Q, isMaker := mb }]
        [{ price := ps, qty := Q, isMaker := ms }] m).2.2.pnl =
      m.pnl + specNetProfit cfg pb ps Q mb ms) ∧
    ((matchAll cfg [{ price := pb, qty := Q, isMaker := mb }]
        [{ price := ps, qty := Q, isMaker := ms }] m).2.2.nMatched = m.nMatched + 1) ∧
    ((matchAll cfg [{ price := pb, qty := Q, isMaker := mb }]
        [{ price := ps, qty := Q, isMaker := ms }] m).2.2.wins =
      if 0 ≤ specNetProfit cfg pb ps Q mb ms then m.wins + 1 else m.wins) := by
  have hnet : Q * ps - Q * pb -
      (if mb then Q * pb * cfg.maker else Q * pb * cfg.taker) -
      (if ms then Q * ps * cfg.maker else Q * ps * cfg.taker) =
      specNetProfit cfg pb ps Q mb ms := by
    cases mb <;> cases ms <;> simp [specNetProfit, feeRate]
  have hstep : matchAll cfg [{ price := pb, qty := Q, isMaker := mb }]
      [{ price := ps, qty := Q, isMaker := ms }] m =
      ([], [], stepMetrics cfg { price := pb, qty := Q, isMaker := mb }
        { price := ps, qty := Q, isMaker := ms } m) := by
    simp [matchAll, matchLoopF, nextBuys, nextSells]
  rw [hstep]
  refine ⟨?_, ?_, ?_⟩
  · simp only [stepMetrics, min_self]
    rw [hnet]
  · rfl
  · simp only [stepMetrics, min_self]
    rw [hnet]

/-- C9: in any physically valid run of four back-to-back calls throttled at
rate 3, the 4th recorded timestamp is at least 1 second after the 1st;
validity (`validRun`) is exactly the code's contract that the busy-wait
exits only when fewer than `rate` timestamps remain in the trailing
1-second window, after which the new timestamp is recorded. -/
theorem throttle_rate3_fourth_call (e1 e2 e3 e4 : AcqEvent)
    (h : validRun 3 [] [e1, e2, e3, e4]) :
    e1.tRec + 1 ≤ e4.tRec := by
  norm_num [validRun, callWindow] at h
  obtain ⟨h1m, h2w, h2m, h2c, h3w, h3m, ⟨h3c1, h3c2⟩, h4w, h4m, h4c1, h4c2, h4c3⟩ := h
  by_cases c1 : e4.tExit ≤ 1 + e1.tRec
  · by_cases c2 : e4.tExit ≤ 1 + e2.tRec
    · by_cases c3 : e4.tExit ≤ 1 + e3.tRec
      · exfalso
        simp [List.filter_cons, c1, c2, c3] at h4w
      · linarith [not_le.mp c3]
    · linarith [not_le.mp c2]
  · linarith [not_le.mp c1]

/-- Witness for C9: a concrete valid 4-call trace at rate 3 (three instant
calls at time 0, the 4th passing the gate at time 3/2). -/
theorem throttle_rate3_fourth_call_w :
    validRun 3 [] [⟨0, 0⟩, ⟨0, 0⟩, ⟨0, 0⟩, ⟨3 / 2, 3 / 2⟩] ∧
    ((⟨0, 0⟩ : AcqEvent).tRec + 1 ≤ ((⟨3 / 2, 3 / 2⟩ : AcqEvent)).tRec) := by
  have hv : validRun 3 [] [⟨0, 0⟩, ⟨0, 0⟩, ⟨0, 0⟩, ⟨3 / 2, 3 / 2⟩] := by
    norm_num [validRun, callWindow]
  exact ⟨hv, throttle_rate3_fourth_call _ _ _ _ hv⟩

/-- Processing an order event leaves the entries of every other link-id
untouched. -/
theorem processOrderEvent_frame (st : OmsState) (o : OrderEvent) (l : String)
    (h : o.orderLinkId ≠ l) :
    (Oms.processOrderEvent st o).orderStatus l = st.orderStatus l ∧
    (Oms.processOrderEvent st o).activeOrders l = st.activeOrders l := by
  have h' : l ≠ o.orderLinkId := fun e => h e.symm
  unfold Oms.processOrderEvent
  split <;> simp [updMap, h']

/-- Folding a batch containing no event for link-id `l` leaves `l`'s entries
untouched. -/
theorem foldl_process_frame (data : List OrderEvent) (l : String)
    (h : ∀ o ∈ data, o.orderLinkId ≠ l) (st : OmsState) :
    ((data.foldl Oms.processOrderEvent st).orderStatus l = st.orderStatus l) ∧
    ((data.foldl Oms.processOrderEvent st).activeOrders l = st.activeOrders l) := by
  induction data generalizing st with
  | nil => exact ⟨rfl, rfl⟩
  | cons x rest ih =>
      have hx := h x (List.mem_cons_self x rest)
      have hr : ∀ o ∈ rest, o.orderLinkId ≠ l := fun o ho => h o (List.mem_cons_of_mem x ho)
      have hstep := processOrderEvent_frame st x l hx
      have htail := ih hr (Oms.processOrderEvent st x)
      exact ⟨htail.1.trans hstep.1, htail.2.trans hstep.2⟩

/-- After folding a batch, the entries for link-id `l` are determined by the
last event for `l` in the batch: status is overwritten with its status, and
the active-set entry is present iff its `leavesQty` is non-zero. -/
theorem foldl_process_last (data : List OrderEvent) (l : String) (o : OrderEvent)
    (h : lastEventFor l data = some o) (st : OmsState) :
    ((data.foldl Oms.processOrderEvent st).orderStatus l = some o.orderStatus) ∧
    (o.leavesQty = 0 → (data.foldl Oms.processOrderEvent st).activeOrders l = none) ∧
    (o.leavesQty ≠ 0 → (data.foldl Oms.processOrderEvent st).activeOrders l = some o) := by
  induction data generalizing st with
  | nil => simp [lastEventFor] at h
  | cons x rest ih =>
      by_cases hrest : lastEventFor l rest = none
      · have hfnil : rest.filter (fun o => decide (o.orderLinkId = l)) = [] :=
          List.getLast?_eq_none_iff.mp hrest
        have hall : ∀ o' ∈ rest, o'.orderLinkId ≠ l := by
          intro o' ho'
          have := List.filter_eq_nil_iff.mp hfnil o' ho'
          simpa using this
        by_cases hx : x.orderLinkId = l
        · have hframe := foldl_process_frame rest l hall (Oms.processOrderEvent st x)
          have ho : o = x := by
            unfold lastEventFor at h
            rw [List.filter_cons] at h
            simp [hx, hfnil] at h
            exact h.symm
          subst ho
          rw [List.foldl_cons]
          rw [hframe.1, hframe.2]
          unfold Oms.processOrderEvent
          subst hx
          refine ⟨?_, ?_, ?_⟩
          · split <;> simp [updMap]
          · intro h0
            rw [if_neg (by simp [h0])]
            simp [updMap]
          · intro h0
            rw [if_pos h0]
            simp [updMap]
        · exfalso
          unfold lastEventFor at h
          rw [List.filter_cons] at h
          simp [hx, hfnil] at h
      · obtain ⟨o', ho'⟩ := Option.ne_none_iff_exists'.mp hrest
        have hrest_ne : rest.filter (fun o => decide (o.orderLinkId = l)) ≠ [] := by
          intro hnull
          rw [lastEventFor, hnull] at ho'
          simp at ho'
        have hlast : lastEventFor l (x :: rest) = lastEventFor l rest := by
          unfold lastEventFor
          rw [List.filter_cons]
          split
          · obtain ⟨y, ys, hys⟩ := List.exists_cons_of_ne_nil hrest_ne
            rw [hys, List.getLast?_cons_cons]
          · rfl
        rw [hlast] at h
        rw [List.foldl_cons]
        exact ih h (Oms.processOrderEvent st x)

/-- C7: after `_on_order_message` processes a batch, every link-id whose
latest relevant update reports `leavesQty = 0` is absent from the active set
while its last status is still retrievable from the status map, and every
link-id whose latest relevant update reports `leavesQty > 0` is present in
the active set. -/
theorem order_message_active_membership (st : OmsState) (data : List OrderEvent)
    (l : String) (o : OrderEvent)
    (h : lastEventFor l (Oms.sortOrders (Oms.relevantOrders st data)) = some o) :
    ((Oms.onOrderMessage st data).orderStatus l = some o.orderStatus) ∧
    (o.leavesQty = 0 → (Oms.onOrderMessage st data).activeOrders l = none) ∧
    (0 < o.leavesQty → (Oms.onOrderMessage st data).activeOrders l = some o) := by
  have hfold := foldl_process_last _ l o h st
  cases hrel : Oms.relevantOrders st data with
  | nil =>
      rw [hrel] at h
      simp [Oms.sortOrders, lastEventFor] at h
  | cons a as =>
      unfold Oms.onOrderMessage
      rw [hrel]
      rw [List.isEmpty_cons]
      simp only [Bool.false_eq_true, if_false]
      rw [hrel] at hfold
      exact ⟨hfold.1, hfold.2.1, fun hpos => hfold.2.2 (ne_of_gt hpos)⟩

/-- Witness for C7: a batch with one fully-filled update (`leavesQty = 0`)
leaves `L2` out of the active set with status `"Filled"` retrievable. -/
theorem order_message_active_membership_w :
    (Oms.onOrderMessage omsW [oEvFilled]).activeOrders "L2" = none ∧
    (Oms.onOrderMessage omsW [oEvFilled]).orderStatus "L2" = some "Filled" := by
  have h : lastEventFor "L2" (Oms.sortOrders (Oms.relevantOrders omsW [oEvFilled])) =
      some oEvFilled := rfl
  have t := order_message_active_membership omsW [oEvFilled] "L2" oEvFilled h
  exact ⟨t.2.1 rfl, t.1⟩

/-- Every iteration of the matching loop evicts at least one queue head:
the head whose quantity was the minimum reaches zero. -/
theorem next_length_le (b s : Fill) (bs ss : List Fill) :
    (nextBuys b s bs).length + (nextSells b s ss).length ≤ bs.length + ss.length + 1 := by
  have hmin : b.qty - min b.qty s.qty = 0 ∨ s.qty - min b.qty s.qty = 0 := by
    rcases min_choice b.qty s.qty with h | h
    · left; rw [h]; ring
    · right; rw [h]; ring
  unfold nextBuys nextSells
  by_cases h1 : b.qty - min b.qty s.qty = 0
  · by_cases h2 : s.qty - min b.qty s.qty = 0 <;>
      simp [h1, h2, List.length_cons] <;> omega
  · have h2 : s.qty - min b.qty s.qty = 0 := hmin.resolve_left h1
    simp [h1, h2, List.length_cons]
    omega

/-- Fuel irrelevance: any fuel at least the total queue length computes the
same completed matching loop, so the fuel in `matchAll` is not a semantic
restriction on the source's unbounded `while` loop. -/
theorem matchLoopF_of_le (cfg : AccCfg) :
    ∀ (fuel fuel' : ℕ) (bs ss : List Fill) (m : Metrics),
      bs.length + ss.length ≤ fuel → fuel ≤ fuel' →
      matchLoopF cfg fuel' bs ss m = matchLoopF cfg fuel bs ss m := by
  intro fuel
  induction fuel with
  | zero =>
      intro fuel' bs ss m hlen _
      have hbs : bs = [] := by
        cases bs
        · rfl
        · simp [List.length_cons] at hlen
      have hss : ss = [] := by
        cases ss
        · rfl
        · simp [List.length_cons] at hlen
      subst hbs; subst hss
      cases fuel' <;> rfl
  | succ n ih =>
      intro fuel' bs ss m hlen hle
      cases bs with
      | nil => cases fuel' <;> rfl
      | cons b bs' =>
          cases ss with
          | nil => cases fuel' <;> rfl
          | cons s ss' =>
              obtain ⟨k, rfl⟩ : ∃ k, fuel' = k + 1 := ⟨fuel' - 1, by omega⟩
              simp only [matchLoopF]
              have hlen' : (nextBuys b s bs').length + (nextSells b s ss').length ≤ n := by
                have := next_length_le b s bs' ss'
                simp [List.length_cons] at hlen
                omega
              exact ih k (nextBuys b s bs') (nextSells b s ss') (stepMetrics cfg b s m)
                hlen' (by omega)

/-- The matching loop does nothing when the buy queue is empty. -/
theorem matchLoopF_nil_left (cfg : AccCfg) (fuel : ℕ) (ss : List Fill) (m : Metrics) :
    matchLoopF cfg fuel [] ss m = ([], ss, m) := by
  cases fuel <;> rfl

/-- The matching loop does nothing when the sell queue is empty. -/
theorem matchLoopF_nil_right (cfg : AccCfg) (fuel : ℕ) (bs : List Fill) (m : Metrics) :
    matchLoopF cfg fuel bs [] m = (bs, [], m) := by
  cases fuel <;> cases bs <;> rfl

/-- `matchAll` on an empty buy queue. -/
theorem matchAll_nil_left (cfg : AccCfg) (ss : List Fill) (m : Metrics) :
    matchAll cfg [] ss m = ([], ss, m) :=
  matchLoopF_nil_left cfg _ ss m

/-- `matchAll` on an empty sell queue. -/
theorem matchAll_nil_right (cfg : AccCfg) (bs : List Fill) (m : Metrics) :
    matchAll cfg bs [] m = (bs, [], m) :=
  matchLoopF_nil_right cfg _ bs m

/-- One unfolding of the completed matching loop on two non-empty queues. -/
theorem matchAll_cons (cfg : AccCfg) (b s : Fill) (bs ss : List Fill) (m : Metrics) :
    matchAll cfg (b :: bs) (s :: ss) m =
      matchAll cfg (nextBuys b s bs) (nextSells b s ss) (stepMetrics cfg b s m) := by
  unfold matchAll
  have h1 : (b :: bs).length + (s :: ss).length = (bs.length + ss.length + 1) + 1 := by
    simp [List.length_cons]
    omega
  rw [h1]
  simp only [matchLoopF]
  exact matchLoopF_of_le cfg ((nextBuys b s bs).length + (nextSells b s ss).length)
    (bs.length + ss.length + 1) _ _ _ le_rfl (next_length_le b s bs ss)

/-- Evicting or shrinking a head commutes with fills appended at the tail. -/
theorem nextBuys_append (b s : Fill) (bs nb : List Fill) :
    nextBuys b s (bs ++ nb) = nextBuys b s bs ++ nb := by
  unfold nextBuys
  split <;> simp

/-- Evicting or shrinking a head commutes with fills appended at the tail. -/
theorem nextSells_append (b s : Fill) (ss ns : List Fill) :
    nextSells b s (ss ++ ns) = nextSells b s ss ++ ns := by
  unfold nextSells
  split <;> simp

/-- Matching consumes queue heads only, so completing the loop, appending
fresh fills at the tails, and completing it again is the same as appending
first and completing once. -/
theorem matchAll_append (cfg : AccCfg) :
    ∀ (n : ℕ) (bs ss : List Fill) (m : Metrics), bs.length + ss.length ≤ n →
      ∀ (nb ns : List Fill),
        matchAll cfg (bs ++ nb) (ss ++ ns) m =
          matchAll cfg ((matchAll cfg bs ss m).1 ++ nb)
            ((matchAll cfg bs ss m).2.1 ++ ns) (matchAll cfg bs ss m).2.2 := by
  intro n
  induction n with
  | zero =>
      intro bs ss m hlen nb ns
      have hbs : bs = [] := by
        cases bs
        · rfl
        · simp [List.length_cons] at hlen
      have hss : ss = [] := by
        cases ss
        · rfl
        · simp [List.length_cons] at hlen
      subst hbs; subst hss
      simp [matchAll_nil_left]
  | succ n ih =>
      intro bs ss m hlen nb ns
      cases bs with
      | nil => simp [matchAll_nil_left]
      | cons b bs' =>
          cases ss with
          | nil => simp [matchAll_nil_right]
          | cons s ss' =>
              rw [List.cons_append, List.cons_append, matchAll_cons,
                nextBuys_append, nextSells_append, matchAll_cons]
              have hlen' : (nextBuys b s bs').length + (nextSells b s ss').length ≤ n := by
                have := next_length_le b s bs' ss'
                simp [List.length_cons] at hlen
                omega
              exact ih (nextBuys b s bs') (nextSells b s ss') (stepMetrics cfg b s m)
                hlen' nb ns

/-- After the matching loop completes, at least one queue is empty. -/
theorem matchAll_one_empty (cfg : AccCfg) :
    ∀ (n : ℕ) (bs ss : List Fill) (m : Metrics), bs.length + ss.length ≤ n →
      (matchAll cfg bs ss m).1 = [] ∨ (matchAll cfg bs ss m).2.1 = [] := by
  intro n
  induction n with
  | zero =>
      intro bs ss m hlen
      have hbs : bs = [] := by
        cases bs
        · rfl
        · simp [List.length_cons] at hlen
      subst hbs
      left
      rw [matchAll_nil_left]
  | succ n ih =>
      intro bs ss m hlen
      cases bs with
      | nil =>
          left
          rw [matchAll_nil_left]
      | cons b bs' =>
          cases ss with
          | nil =>
              right
              rw [matchAll_nil_right]
          | cons s ss' =>
              rw [matchAll_cons]
              have hlen' : (nextBuys b s bs').length + (nextSells b s ss').length ≤ n := by
                have := next_length_le b s bs' ss'
                simp [List.length_cons] at hlen
                omega
              exact ih _ _ _ hlen'

/-- The matching loop preserves positivity of every queued quantity: a kept
head's new quantity is `qty − min(...) > 0` (non-negative because the
minimum is subtracted, non-zero or it would have been evicted). -/
theorem matchAll_pos (cfg : AccCfg) :
    ∀ (n : ℕ) (bs ss : List Fill) (m : Metrics), bs.length + ss.length ≤ n →
      (∀ f ∈ bs, 0 < f.qty) → (∀ f ∈ ss, 0 < f.qty) →
      (∀ f ∈ (matchAll cfg bs ss m).1, 0 < f.qty) ∧
      (∀ f ∈ (matchAll cfg bs ss m).2.1, 0 < f.qty) := by
  intro n
  induction n with
  | zero =>
      intro bs ss m hlen hb hs
      have hbs : bs = [] := by
        cases bs
        · rfl
        · simp [List.length_cons] at hlen
      have hss : ss = [] := by
        cases ss
        · rfl
        · simp [List.length_cons] at hlen
      subst hbs; subst hss
      rw [matchAll_nil_left]
      exact ⟨by simp, by simp⟩
  | succ n ih =>
      intro bs ss m hlen hb hs
      cases bs with
      | nil =>
          rw [matchAll_nil_left]
          exact ⟨by simp, hs⟩
      | cons b bs' =>
          cases ss with
          | nil =>
              rw [matchAll_nil_right]
              exact ⟨hb, by simp⟩
          | cons s ss' =>
              rw [matchAll_cons]
              have hlen' : (nextBuys b s bs').length + (nextSells b s ss').length ≤ n := by
                have := next_length_le b s bs' ss'
                simp [List.length_cons] at hlen
                omega
              have hb' : ∀ f ∈ nextBuys b s bs', 0 < f.qty := by
                intro f hf
                unfold nextBuys at hf
                split at hf
                · exact hb f (List.mem_cons_of_mem b hf)
                · rcases List.mem_cons.mp hf with hf | hf
                  · subst hf
                    have hnn : 0 ≤ b.qty - min b.qty s.qty :=
                      sub_nonneg.mpr (min_le_left b.qty s.qty)
                    exact lt_of_le_of_ne hnn (fun e => ‹¬ b.qty - min b.qty s.qty = 0› e.symm)
                  · exact hb f (List.mem_cons_of_mem b hf)
              have hs' : ∀ f ∈ nextSells b s ss', 0 < f.qty := by
                intro f hf
                unfold nextSells at hf
                split at hf
                · exact hs f (List.mem_cons_of_mem s hf)
                · rcases List.mem_cons.mp hf with hf | hf
                  · subst hf
                    have hnn : 0 ≤ s.qty - min b.qty s.qty :=
                      sub_nonneg.mpr (min_le_right b.qty s.qty)
                    exact lt_of_le_of_ne hnn (fun e => ‹¬ s.qty - min b.qty s.qty = 0› e.symm)
                  · exact hs f (List.mem_cons_of_mem s hf)
              exact ih _ _ _ hlen' hb' hs'

/-- Appending events batch-by-batch is the same as appending them in one
go. -/
theorem pushFills_append_events (l1 l2 : List ExecEvent) :
    ∀ (bs ss : List Fill),
      pushFills bs ss (l1 ++ l2) =
        pushFills (pushFills bs ss l1).1 (pushFills bs ss l1).2 l2 := by
  induction l1 with
  | nil => intro bs ss; rfl
  | cons e rest ih =>
      intro bs ss
      simp only [List.cons_append, pushFills]
      split
      · exact ih (bs ++ [Fill.ofEvent e]) ss
      · exact ih bs (ss ++ [Fill.ofEvent e])

/-- Pushed fills land at the queue tails: pushing onto any queues appends
exactly what pushing onto empty queues produces. -/
theorem pushFills_decompose (l : List ExecEvent) :
    ∀ (bs ss : List Fill),
      pushFills bs ss l =
        (bs ++ (pushFills [] [] l).1, ss ++ (pushFills [] [] l).2) := by
  induction l with
  | nil => intro bs ss; simp [pushFills]
  | cons e rest ih =>
      intro bs ss
      simp only [pushFills, List.nil_append]
      split
      · rw [ih (bs ++ [Fill.ofEvent e]) ss, ih [Fill.ofEvent e] []]
        simp [List.append_assoc]
      · rw [ih bs (ss ++ [Fill.ofEvent e]), ih [] [Fill.ofEvent e]]
        simp [List.append_assoc]

/-- Pushing events with positive quantities onto queues of positive
quantities keeps every queued quantity positive. -/
theorem pushFills_pos (l : List ExecEvent) :
    ∀ (bs ss : List Fill),
      (∀ f ∈ bs, 0 < f.qty) → (∀ f ∈ ss, 0 < f.qty) →
      (∀ e ∈ l, 0 < e.execQty) →
      (∀ f ∈ (pushFills bs ss l).1, 0 < f.qty) ∧
      (∀ f ∈ (pushFills bs ss l).2, 0 < f.qty) := by
  induction l with
  | nil => intro bs ss hb hs _; exact ⟨hb, hs⟩
  | cons e rest ih =>
      intro bs ss hb hs he
      have he0 : 0 < e.execQty := he e (List.mem_cons_self e rest)
      have her : ∀ x ∈ rest, 0 < x.execQty := fun x hx => he x (List.mem_cons_of_mem e hx)
      simp only [pushFills]
      split
      · refine ih (bs ++ [Fill.ofEvent e]) ss ?_ hs her
        intro f hf
        rcases List.mem_append.mp hf with hf | hf
        · exact hb f hf
        · rcases List.mem_singleton.mp hf with rfl
          exact he0
      · refine ih bs (ss ++ [Fill.ofEvent e]) hb ?_ her
        intro f hf
        rcases List.mem_append.mp hf with hf | hf
        · exact hs f hf
        · rcases List.mem_singleton.mp hf with rfl
          exact he0

/-- Feeding two fill lists through the unguarded core in sequence equals
feeding their concatenation once. -/
theorem applyFills_append (cfg : AccCfg) (st : AccState) (f1 f2 : List ExecEvent) :
    applyFills cfg (applyFills cfg st f1) f2 = applyFills cfg st (f1 ++ f2) := by
  unfold applyFills
  simp only
  rw [pushFills_append_events f1 f2 st.buys st.sells]
  rw [pushFills_decompose f2 (pushFills st.buys st.sells f1).1 (pushFills st.buys st.sells f1).2]
  rw [pushFills_decompose f2 (matchAll cfg (pushFills st.buys st.sells f1).1
    (pushFills st.buys st.sells f1).2 st.m).1
    (matchAll cfg (pushFills st.buys st.sells f1).1 (pushFills st.buys st.sells f1).2 st.m).2.1]
  rw [matchAll_append cfg
    ((pushFills st.buys st.sells f1).1.length + (pushFills st.buys st.sells f1).2.length)
    (pushFills st.buys st.sells f1).1 (pushFills st.buys st.sells f1).2 st.m le_rfl
    (pushFills [] [] f2).1 (pushFills [] [] f2).2]

/-- A batch with no relevant event leaves the accounting state unchanged. -/
theorem onExecMessage_irrelevant (cfg : AccCfg) (st : AccState) (data : List ExecEvent)
    (h : relevantExec cfg data = []) :
    onExecMessage cfg st data = st := by
  unfold onExecMessage
  rw [h]
  rfl

/-- The queue invariant of §4.5: at least one queue empty, and every queued
quantity positive. -/
def accInv (st : AccState) : Prop :=
  (st.buys = [] ∨ st.sells = []) ∧
  (∀ f ∈ st.buys, 0 < f.qty) ∧ (∀ f ∈ st.sells, 0 < f.qty)

/-- One execution batch whose relevant fills all have positive quantity
preserves the queue invariant. -/
theorem onExecMessage_inv (cfg : AccCfg) (st : AccState) (data : List ExecEvent)
    (hst : accInv st)
    (hpos : ∀ e ∈ relevantExec cfg data, 0 < e.execQty) :
    accInv (onExecMessage cfg st data) := by
  unfold onExecMessage
  split
  · exact hst
  · have hsortpos : ∀ e ∈ sortExec (relevantExec cfg data), 0 < e.execQty := by
      intro e he
      refine hpos e ?_
      have hperm := List.perm_insertionSort
        (fun a b : ExecEvent => a.execTime ≤ b.execTime) (relevantExec cfg data)
      exact hperm.mem_iff.mp he
    have hq := pushFills_pos (sortExec (relevantExec cfg data)) st.buys st.sells
      hst.2.1 hst.2.2 hsortpos
    unfold applyFills
    simp only
    refine ⟨?_, ?_, ?_⟩
    · exact matchAll_one_empty cfg _ _ _ st.m le_rfl
    · exact (matchAll_pos cfg _ _ _ st.m le_rfl hq.1 hq.2).1
    · exact (matchAll_pos cfg _ _ _ st.m le_rfl hq.1 hq.2).2

/-- C6: feeding any sequence of batches whose relevant fills all have
positive quantities, after each batch at least one of the two unmatched-fill
queues is empty and the head of a non-empty queue has positive remaining
quantity. -/
theorem fifo_queue_invariant (cfg : AccCfg) (batches : List (List ExecEvent))
    (hpos : ∀ batch ∈ batches, ∀ e ∈ relevantExec cfg batch, 0 < e.execQty) :
    ((runBatches cfg initAcc batches).buys = [] ∨
      (runBatches cfg initAcc batches).sells = []) ∧
    (∀ f ∈ (runBatches cfg initAcc batches).buys.head?, 0 < f.qty) ∧
    (∀ f ∈ (runBatches cfg initAcc batches).sells.head?, 0 < f.qty) := by
  have key : ∀ (bs : List (List ExecEvent)) (st : AccState), accInv st →
      (∀ batch ∈ bs, ∀ e ∈ relevantExec cfg batch, 0 < e.execQty) →
      accInv (bs.foldl (onExecMessage cfg) st) := by
    intro bs
    induction bs with
    | nil => intro st hst _; exact hst
    | cons batch rest ih =>
        intro st hst hp
        rw [List.foldl_cons]
        exact ih (onExecMessage cfg st batch)
          (onExecMessage_inv cfg st batch hst (hp batch (List.mem_cons_self batch rest)))
          (fun b hb => hp b (List.mem_cons_of_mem batch hb))
  have hinv0 : accInv initAcc := ⟨Or.inl rfl, by simp [initAcc], by simp [initAcc]⟩
  have hfin := key batches initAcc hinv0 hpos
  refine ⟨hfin.1, ?_, ?_⟩
  · intro f hf
    exact hfin.2.1 f (List.mem_of_mem_head? hf)
  · intro f hf
    exact hfin.2.2 f (List.mem_of_mem_head? hf)

/-- C5 (amended): feeding the fills in two deliveries is equivalent to
feeding them as one pre-sorted batch exactly when the split respects global
execution-time order, i.e. when the internally sorted relevant fills of the
two batches concatenate to the sorted relevant fills of the combined batch.
(Arbitrary delivery orders do change the result — see the counterexample.) -/
theorem fifo_batch_split_invariant (cfg : AccCfg) (st : AccState) (l1 l2 : List ExecEvent)
    (h : sortExec (relevantExec cfg (l1 ++ l2)) =
         sortExec (relevantExec cfg l1) ++ sortExec (relevantExec cfg l2)) :
    onExecMessage cfg (onExecMessage cfg st l1) l2 =
      onExecMessage cfg st (l1 ++ l2) := by
  have hrel : relevantExec cfg (l1 ++ l2) = relevantExec cfg l1 ++ relevantExec cfg l2 :=
    List.filter_append _ _
  cases h1 : relevantExec cfg l1 with
  | nil =>
      rw [onExecMessage_irrelevant cfg st l1 h1]
      unfold onExecMessage
      rw [hrel, h1, List.nil_append]
  | cons a as =>
      cases h2 : relevantExec cfg l2 with
      | nil =>
          rw [onExecMessage_irrelevant cfg (onExecMessage cfg st l1) l2 h2]
          unfold onExecMessage
          rw [hrel, h1, h2, List.append_nil]
      | cons a2 as2 =>
          rw [hrel, h1, h2] at h
          unfold onExecMessage
          rw [hrel, h1, h2, h]
          simp only [List.cons_append, List.isEmpty_cons, Bool.false_eq_true, if_false]
          exact applyFills_append cfg st _ _

/-- Witness for C5 (amended): delivering `eB1` then `eS1` (a split that
respects execution-time order) equals delivering both as one batch. -/
theorem fifo_batch_split_invariant_w :
    onExecMessage cfgW (onExecMessage cfgW initAcc [eB1]) [eS1] =
      onExecMessage cfgW initAcc ([eB1] ++ [eS1]) :=
  fifo_batch_split_invariant cfgW initAcc [eB1] [eS1] (by rfl)

/-- C5 counterexample: the same three fills — `eB1`, `eB2`, `eS1`, each
delivered batch internally sorted by execution time — produce final PnL +50
when delivered as one batch but −50 when `eB2` is delivered first, because
the FIFO queues order fills by arrival, not by global execution time. -/
theorem fifo_delivery_order_dependent :
    (runBatches cfgW initAcc [[eB1, eB2, eS1]]).m.pnl ≠
      (runBatches cfgW initAcc [[eB2], [eB1, eS1]]).m.pnl := by
  have hSB : ¬(("Sell" : String) = "Buy") := by decide
  have hA : (runBatches cfgW initAcc [[eB1, eB2, eS1]]).m.pnl = 50 := by
    norm_num [runBatches, List.foldl, onExecMessage, relevantExec, sortExec,
      List.insertionSort, List.orderedInsert, List.filter, applyFills, pushFills,
      Fill.ofEvent, matchAll_cons, matchAll_nil_left, matchAll_nil_right,
      nextBuys, nextSells, stepMetrics, cfgW, initAcc, eB1, eB2, eS1, hSB]
  have hB : (runBatches cfgW initAcc [[eB2], [eB1, eS1]]).m.pnl = -50 := by
    norm_num [runBatches, List.foldl, onExecMessage, relevantExec, sortExec,
      List.insertionSort, List.orderedInsert, List.filter, applyFills, pushFills,
      Fill.ofEvent, matchAll_cons, matchAll_nil_left, matchAll_nil_right,
      nextBuys, nextSells, stepMetrics, cfgW, initAcc, eB1, eB2, eS1, hSB]
  rw [hA, hB]
  norm_num

/-- Witness for C6: one batch of two positive-quantity fills. -/
theorem fifo_queue_invariant_w :
    ((runBatches cfgW initAcc [[eB1, eS1]]).buys = [] ∨
      (runBatches cfgW initAcc [[eB1, eS1]]).sells = []) ∧
    (∀ f ∈ (runBatches cfgW initAcc [[eB1, eS1]]).buys.head?, 0 < f.qty) ∧
    (∀ f ∈ (runBatches cfgW initAcc [[eB1, eS1]]).sells.head?, 0 < f.qty) :=
  fifo_queue_invariant cfgW [[eB1, eS1]] (by decide)

end BBTT
